import Mathlib

/-!
Verification development for the Remixatron `InfiniteJukebox` audio remix
engine (`src/exploration/remixatron/Remixatron.py`).

The numerical pipeline is shallowly embedded: Python floats are modelled by
`ℚ` (the arithmetic of the embedded operations is exact on the values the
code manipulates), Python ints by `ℤ`/`ℕ`, numpy arrays by lists, raised
exceptions by `Except String`, and the external libraries (librosa, madmom,
sklearn) by oracle parameters supplying their outputs.  Each definition
below names the source construct it embeds.
-/

namespace Remixatron

/-- Python 3 `round()`: round half to even (banker's rounding). -/
def pyRound (q : ℚ) : ℤ :=
  let f : ℤ := ⌊q⌋
  let r : ℚ := q - f
  if r < 1/2 then f
  else if 1/2 < r then f + 1
  else if Even f then f else f + 1

/-- Python `%` with modulus 2 on a float value (result in `[0, 2)`). -/
def qmod2 (q : ℚ) : ℚ := q - 2 * ⌊q / 2⌋

/-- Python `int()` applied to a float: truncation toward zero. -/
def truncQ (q : ℚ) : ℤ := if q < 0 then ⌈q⌉ else ⌊q⌋

/-- Entry `M[i][j]` of a list-of-rows matrix (0 outside the stored shape,
matching in-range numpy indexing wherever the embedding reads it). -/
def mentry (M : List (List ℚ)) (i j : ℕ) : ℚ := (M.getD i []).getD j 0

/-- Embeds `InfiniteJukebox.symmetrize_matrix`.  The source checks
`n_rows != n_cols` from `Rf.shape` and raises
`ValueError("Input matrix must be square for symmetrization.")`; otherwise it
fills a `zeros_like` array by iterating the upper triangle `j >= i` and
writing the average `(Rf[i, j] + Rf[j, i]) / 2` into both `[i, j]` and
`[j, i]`.  The branch below records which of the two writes produced the
cell at `(i, j)`. -/
def symmetrize_matrix (Rf : List (List ℚ)) : Except String (List (List ℚ)) :=
  let n_rows := Rf.length
  let n_cols := (Rf.headD []).length
  if n_rows ≠ n_cols then
    Except.error "Input matrix must be square for symmetrization."
  else
    Except.ok ((List.range n_rows).map fun i => (List.range n_rows).map fun j =>
      if i ≤ j then (mentry Rf i j + mentry Rf j i) / 2
      else (mentry Rf j i + mentry Rf i j) / 2)

/-- Transpose of a square list-of-rows matrix (used to state `M' == M'ᵀ`). -/
def transposeSq (M : List (List ℚ)) : List (List ℚ) :=
  (List.range M.length).map fun i => (List.range M.length).map fun j => mentry M j i

deriving instance DecidableEq for Except

/-- One beat record, the dictionary assembled by `__process_audio` (lines
432-530).  Every key that the loose Python dict eventually carries is a field
here; phases of the pipeline that have not yet assigned a field leave its
default value in place, mirroring the key not yet being present. -/
structure Beat where
  start : ℚ := 0
  cluster : ℤ := 0
  amplitude : ℚ := 0
  segment : ℤ := 0
  is : ℕ := 0
  duration : ℚ := 0
  start_index : ℤ := 0
  stop_index : ℤ := 0
  id : ℕ := 0
  quartile : ℤ := 0
  next : ℕ := 0
  jump_candidates : List ℕ := []
deriving Repr, DecidableEq, Inhabited

/-- One entry of `play_vector` (lines 590, 709, 713). -/
structure PlayVectorEntry where
  beat : ℕ
  seq_len : ℕ
  seq_pos : ℕ
deriving Repr, DecidableEq, Inhabited

/-- Fold state of the label scan in `__segment_stats_from_labels`:
`(segment_count, segment_length, previous_label, segment_lengths)`. -/
structure SegScan where
  segment_count : ℚ
  segment_length : ℕ
  previous_label : ℤ
  segment_lengths : List ℕ

/-- Embeds `InfiniteJukebox.__segment_stats_from_labels` (lines 878-904).
`clusters = max(labels) + 1` is computed first (`max` of an empty list raises
in Python, hence the first error case).  The scan appends the finished run
length to `segment_lengths` only when the *next* run starts, so the final
run is never appended; `min(segment_lengths)` raises on an empty list. -/
def segment_stats_from_labels (labels : List ℤ) : Except String (ℚ × ℕ) :=
  match labels.max? with
  | none => Except.error "max() arg is an empty sequence"
  | some mx =>
    let clusters : ℤ := mx + 1
    let st := labels.foldl (fun (st : SegScan) label =>
      if label ≠ st.previous_label then
        { segment_count := st.segment_count + 1
          segment_length := 1
          previous_label := label
          segment_lengths :=
            if st.segment_length > 0 then st.segment_lengths ++ [st.segment_length]
            else st.segment_lengths }
      else { st with segment_length := st.segment_length + 1 })
      { segment_count := 0, segment_length := 0, previous_label := -1, segment_lengths := [] }
    match st.segment_lengths.min? with
    | none => Except.error "min() arg is an empty sequence"
    | some m => Except.ok (st.segment_count / (clusters : ℚ), m)

/-- Modelled from the spec: the length of the shortest maximal run of equal
consecutive labels, *including* the final run (what the claim asserts
`min_seg` to be). -/
def shortestRunAux (prev : ℤ) (cnt : ℕ) : List ℤ → List ℕ
  | [] => [cnt]
  | a :: l => if a = prev then shortestRunAux prev (cnt + 1) l else cnt :: shortestRunAux a 1 l

/-- Modelled from the spec: run lengths of a label sequence, final run included. -/
def runLengths : List ℤ → List ℕ
  | [] => []
  | a :: l => shortestRunAux a 1 l

/-- Modelled from the spec: shortest run length over the whole sequence. -/
def shortest_run (labels : List ℤ) : ℕ := (runLengths labels).min?.getD 0

/-- The candidate cluster counts scanned by `__compute_best_cluster_with_sil`:
Python `range(48, 2, -1)`, i.e. `48, 47, ..., 3`. -/
def ksList : List ℕ := (List.range 46).map (fun i => 48 - i)

/-- The fold of `__compute_best_cluster_with_sil` (lines 797-857) over the
candidate cluster counts.  State is
`(best_cluster_score, best_cluster_size, best_labels)`, initially
`(0, 0, None)`.  `sil k` is the oracle for
`sklearn.metrics.silhouette_score` at candidate `k`, and `labelsOf k` the
oracle for `KMeans(n_clusters=k, max_iter=300, random_state=0,
n_init=20).fit_predict(X)`.  An update happens whenever
`cluster_score >= best_cluster_score`. -/
def cbcAux (sil : ℕ → ℚ) (labelsOf : ℕ → List ℤ) :
    List ℕ → ℚ × ℕ × Option (List ℤ) → Except String (ℚ × ℕ × Option (List ℤ))
  | [], st => Except.ok st
  | n_clusters :: rest, (best_cluster_score, best_cluster_size, best_labels) =>
    let cluster_labels := labelsOf n_clusters
    let silhouette_avg := sil n_clusters
    match segment_stats_from_labels cluster_labels with
    | Except.error e => Except.error e
    | Except.ok (ratio, min_segment_len) =>
      let orphan_scaler : ℚ := if min_segment_len = 1 then 8/10 else 1
      let cluster_score := (n_clusters : ℚ) * silhouette_avg * ratio * orphan_scaler
      if best_cluster_score ≤ cluster_score then
        cbcAux sil labelsOf rest (cluster_score, n_clusters, some cluster_labels)
      else
        cbcAux sil labelsOf rest (best_cluster_score, best_cluster_size, best_labels)

/-- Embeds `InfiniteJukebox.__compute_best_cluster_with_sil` (lines 736-860):
returns `(best_cluster_size, best_labels)` after scanning `ksList`. -/
def compute_best_cluster_with_sil (sil : ℕ → ℚ) (labelsOf : ℕ → List ℤ) :
    Except String (ℕ × Option (List ℤ)) :=
  (cbcAux sil labelsOf ksList (0, 0, none)).map (fun st => (st.2.1, st.2.2))

/-- The beat-assembly loop of `__process_audio` (lines 432-464).  One tuple
is `(start_time, cluster_label, amplitude)` (the ordinal from the zipped
`range` is only the loop index).  Threaded state mirrors
`last_cluster = -1`, `current_segment = -1`, `segment_beat = 0`;
`current_segment` is incremented before first use, so the record fields are
the post-update values.  `duration` of the last beat is
`self.duration - start`, otherwise the gap to the next tuple's start.
`start_index` applies the parity rule of line 454 on the full value
`start * bytes_per_second` modulo 2; `stop_index` is always the ceiling. -/
def buildInfoAux (D : ℚ) (bps : ℤ) :
    List (ℚ × ℤ × ℚ) → ℤ → ℤ → ℕ → List Beat
  | [], _, _, _ => []
  | t :: rest, last_cluster, current_segment, segment_beat =>
    let start := t.1
    let cl := t.2.1
    let amp := t.2.2
    let seg := if cl ≠ last_cluster then current_segment + 1 else current_segment
    let sb := if cl ≠ last_cluster then 0 else segment_beat + 1
    let dur := match rest with
      | [] => D - start
      | t2 :: _ => t2.1 - start
    let sIdx := if qmod2 (start * (bps : ℚ)) > 3/2 then ⌈start * (bps : ℚ)⌉
                else truncQ (start * (bps : ℚ))
    let eIdx := ⌈(start + dur) * (bps : ℚ)⌉
    { start := start, cluster := cl, amplitude := amp, segment := seg, is := sb,
      duration := dur, start_index := sIdx, stop_index := eIdx }
      :: buildInfoAux D bps rest cl seg sb

/-- The `info` list built by lines 432-464 from the zipped beat tuples. -/
def buildInfo (tuples : List (ℚ × ℤ × ℚ)) (D : ℚ) (bps : ℤ) : List Beat :=
  buildInfoAux D bps tuples (-1) (-1) 0

/-- Embeds lines 466-485: `max_amplitude` is in fact the *mean* amplitude;
`fade` is the index of the last beat whose amplitude is at least
`0.75 * max_amplitude` (found by scanning `reversed(info)` and resolving the
found element with `info.index`, which takes the first equal element), and
the beats are truncated to `info[start_beat : fade + 1]`. -/
def truncate_to_fade (info : List Beat) (start_beat : ℕ) : List Beat :=
  let max_amplitude := (info.map (fun b => b.amplitude)).sum / (info.length : ℚ)
  let fade := match info.reverse.find? (fun b => decide (b.amplitude ≥ 75/100 * max_amplitude)) with
    | some b => info.indexOf b
    | none => info.length - 1
  (info.take (fade + 1)).drop start_beat

/-- Embeds lines 492-494: `beat['id'] = beats.index(beat)` resolves to the
beat's own position (already-processed beats carry the extra `id` key and so
never compare equal to the unprocessed current dict), and
`beat['quartile'] = beat['id'] // (len(beats) / 4.0)`. -/
def assign_ids_aux (n : ℕ) (i : ℕ) : List Beat → List Beat
  | [] => []
  | b :: l =>
    { b with id := i, quartile := ⌊(i : ℚ) / ((n : ℚ) / 4)⌋ } :: assign_ids_aux n (i + 1) l

/-- The id/quartile assignment loop over the truncated beat list. -/
def assign_ids (beats : List Beat) : List Beat := assign_ids_aux beats.length 0 beats

/-- The body of the `next`/`jump_candidates` loop (lines 499-530) for the
beat at position `i`.  `beat == beats[-1]` holds exactly at the last
position (ids are distinct), where `next` is the first beat sharing the
cluster, in measure position `(id+1) % 4`, in the first half of the song and
at or after `loop_bounds_begin`, defaulting to `loop_bounds_begin`.
`jump_candidates` filters `beats[loop_bounds_begin:]` against the beat at
`beats[beat['next']]`. -/
def assignOne (beats : List Beat) (loop_bounds_begin : ℕ) (i : ℕ) (b : Beat) : Beat :=
  let nxt := if i = beats.length - 1 then
      match beats.find? (fun c => decide (c.cluster = b.cluster ∧
          c.id % 4 = (b.id + 1) % 4 ∧
          (c.id : ℚ) ≤ 5/10 * (beats.length : ℚ) ∧
          loop_bounds_begin ≤ c.id)) with
      | some c => c.id
      | none => loop_bounds_begin
    else b.id + 1
  let nb := beats.getD nxt default
  let jump_candidates := ((beats.drop loop_bounds_begin).filter (fun bx =>
      decide (bx.cluster = nb.cluster ∧ bx.is = nb.is ∧
        bx.id % 4 = nb.id % 4 ∧ bx.segment ≠ b.segment ∧ bx.id ≠ nxt))).map
    (fun bx => bx.id)
  { b with next := nxt, jump_candidates := jump_candidates }

/-- The `next`/`jump_candidates` loop, positions threaded explicitly. -/
def assign_next_aux (beats : List Beat) (lbb : ℕ) (i : ℕ) : List Beat → List Beat
  | [] => []
  | b :: l => assignOne beats lbb i b :: assign_next_aux beats lbb (i + 1) l

/-- Embeds lines 499-530 over the whole beat list. -/
def assign_next_and_jumps (beats : List Beat) (lbb : ℕ) : List Beat :=
  assign_next_aux beats lbb 0 beats

/-- Embeds lines 540-551: `last_chance` is the position of the last beat
with a non-empty `jump_candidates` list (found scanning `reversed(beats)`
and resolved with `beats.index`, the first equal element — beats are
pairwise distinct since their ids are), defaulting to `len(beats) - 1`;
then `beats[last_chance]['next'] = min(beats[last_chance]['jump_candidates'])`,
where Python `min` raises `ValueError` on an empty sequence.  Returns the
updated list and `last_chance`. -/
def last_chance_index (beats : List Beat) : ℕ :=
  match beats.reverse.find? (fun b => decide (0 < b.jump_candidates.length)) with
  | some b => beats.indexOf b
  | none => beats.length - 1

/-- The `last_chance` override itself (lines 551). -/
def apply_last_chance (beats : List Beat) : Except String (List Beat × ℕ) :=
  let last_chance := last_chance_index beats
  match (beats.getD last_chance default).jump_candidates.min? with
  | none => Except.error "min() arg is an empty sequence"
  | some m =>
    Except.ok (beats.set last_chance { beats.getD last_chance default with next := m }, last_chance)

/-- `max_sequence_len` (lines 578-579): `int(round((tempo / 120.0) * 48.0))`
rounded down to a multiple of 4. -/
def maxSequenceLen (tempo : ℚ) : ℤ :=
  let m := pyRound (tempo / 120 * 48)
  m - m % 4

/-- Number of values of Python `randrange(16, stop, 4)` for `stop > 16`;
the draw `r` picks `16 + 4 * (r % count)`. -/
def randrangeCount (stop : ℤ) : ℕ := (stop - 16 + 3).toNat / 4

/-- `collections.deque(maxlen=depth)` append: push right, drop from the left
beyond `depth` elements. -/
def pushRecent (recent : List ℤ) (seg : ℤ) (depth : ℕ) : List ℤ :=
  let r := recent ++ [seg]
  r.drop (r.length - depth)

/-- State of the play-vector loop of lines 615-715. `rngIdx` indexes the
stream of pseudo-random draws (`random.choice` picks by `draw % length`,
`randrange(16, max_sequence_len, 4)` picks `16 + 4 * (draw % count)`). -/
structure WalkState where
  beat : Beat
  current_sequence : ℕ
  min_sequence : ℕ
  recent : List ℤ
  beats_since_jump : ℕ
  failed_jumps : ℕ
  rngIdx : ℕ

/-- One iteration of the `for i in range(0, 1024 * 1024)` loop (lines
615-715), returning the appended `play_vector` entry and the next state. -/
def walkStep (beats : List Beat) (loop_bounds_begin : ℕ) (recent_depth : ℕ)
    (numChoices : ℕ) (max_beats_between_jumps : ℤ) (rng : ℕ → ℕ)
    (st : WalkState) : PlayVectorEntry × WalkState :=
  let recent := if st.beat.segment ∈ st.recent then st.recent
                else pushRecent st.recent st.beat.segment recent_depth
  let current_sequence := st.current_sequence + 1
  let will_jump := current_sequence = st.min_sequence ∨
                   (st.beats_since_jump : ℤ) ≥ max_beats_between_jumps
  if will_jump then
    let non_recent_candidates := st.beat.jump_candidates.filter
      (fun c => decide ((beats.getD c default).segment ∉ recent))
    if non_recent_candidates.length = 0 then
      let beats_since_jump := st.beats_since_jump + 1
      let failed_jumps := st.failed_jumps + 1
      let non_quartile_candidates := st.beat.jump_candidates.filter
        (fun c => decide ((beats.getD c default).quartile ≠ st.beat.quartile))
      let fb : Beat × ℕ × ℕ :=
        if (failed_jumps : ℚ) ≥ 1/10 * (beats.length : ℚ) ∧
           0 < non_quartile_candidates.length then
          let furthest_distance :=
            ((non_quartile_candidates.map (fun c : ℕ => |(st.beat.id : ℤ) - (c : ℤ)|)).max?).getD 0
          let jump_to := (non_quartile_candidates.find?
            (fun c : ℕ => decide (|(st.beat.id : ℤ) - (c : ℤ)| = furthest_distance))).getD 0
          (beats.getD jump_to default, 0, 0)
        else if (failed_jumps : ℚ) ≥ 2/10 * (beats.length : ℚ) then
          (beats.getD loop_bounds_begin default, 0, 0)
        else
          (beats.getD st.beat.next default, beats_since_jump, failed_jumps)
      let min_sequence := 16 + 4 * (rng st.rngIdx % numChoices)
      let cs := if (fb.2.1 : ℤ) ≥ max_beats_between_jumps then min_sequence else 0
      ({ beat := fb.1.id, seq_len := min_sequence, seq_pos := cs },
       { beat := fb.1, current_sequence := cs, min_sequence := min_sequence,
         recent := recent, beats_since_jump := fb.2.1, failed_jumps := fb.2.2,
         rngIdx := st.rngIdx + 1 })
    else
      let chosen := non_recent_candidates.getD
        (rng st.rngIdx % non_recent_candidates.length) 0
      let beat := beats.getD chosen default
      let min_sequence := 16 + 4 * (rng (st.rngIdx + 1) % numChoices)
      let cs := if (0 : ℤ) ≥ max_beats_between_jumps then min_sequence else 0
      ({ beat := beat.id, seq_len := min_sequence, seq_pos := cs },
       { beat := beat, current_sequence := cs, min_sequence := min_sequence,
         recent := recent, beats_since_jump := 0, failed_jumps := 0,
         rngIdx := st.rngIdx + 2 })
  else
    ({ beat := st.beat.next, seq_len := st.min_sequence, seq_pos := current_sequence },
     { st with beat := beats.getD st.beat.next default,
               current_sequence := current_sequence, recent := recent,
               beats_since_jump := st.beats_since_jump + 1 })

/-- Runs `n` iterations of the loop, collecting the appended entries. -/
def walkAux (beats : List Beat) (lbb recent_depth numChoices : ℕ)
    (mbj : ℤ) (rng : ℕ → ℕ) : ℕ → WalkState → List PlayVectorEntry
  | 0, _ => []
  | n + 1, st =>
    let (e, st') := walkStep beats lbb recent_depth numChoices mbj rng st
    e :: walkAux beats lbb recent_depth numChoices mbj rng n st'

/-- Embeds the play-vector section of `__process_audio` (lines 569-715).
`random.randrange(16, max_sequence_len, 4)` raises `ValueError` when the
range is empty (`max_sequence_len <= 16`); the first such call happens
before any entry is appended, so the guard is hoisted.  Otherwise the vector
is the initial entry `{'beat': 0, 'seq_len': min_sequence, 'seq_pos': 0}`
followed by one entry per loop iteration. -/
def create_play_vector (beats : List Beat) (loop_bounds_begin : ℕ) (segments : ℤ)
    (tempo : ℚ) (rng : ℕ → ℕ) : Except String (List PlayVectorEntry) :=
  let max_sequence_len := maxSequenceLen tempo
  if max_sequence_len ≤ 16 then
    Except.error "empty range for randrange()"
  else
    let numChoices := randrangeCount max_sequence_len
    let min_sequence := max (16 + 4 * (rng 0 % numChoices)) loop_bounds_begin
    let recent_depth := max (pyRound ((segments : ℚ) * (25/100))).toNat 1
    let max_beats_between_jumps := pyRound ((beats.length : ℚ) * (1/10))
    let st0 : WalkState :=
      { beat := beats.headD default, current_sequence := 0, min_sequence := min_sequence,
        recent := [], beats_since_jump := 0, failed_jumps := 0, rngIdx := 1 }
    Except.ok ({ beat := 0, seq_len := min_sequence, seq_pos := 0 } ::
      walkAux beats loop_bounds_begin recent_depth numChoices max_beats_between_jumps
        rng (1024 * 1024) st0)

/-- External library outputs consumed by `__process_audio`, supplied as
oracles: the decoded audio length and trimmed duration (librosa.load /
trim / get_duration), the scalar tempo, the fixed-frame beat times, the
beat-synchronous RMS amplitudes, the madmom downbeat tracker's output, and
the sklearn silhouette / k-means oracles for the cluster selector.  `rng`
is the stream of pseudo-random draws of the seeded `random` module. -/
structure Externals where
  rawLen : ℕ
  duration : ℚ
  tempo : ℚ
  beatTimes : List ℚ
  amps : List ℚ
  madmom : List (ℚ × ℚ)
  sil : ℕ → ℚ
  kmeansLabels : ℕ → List ℤ
  rng : ℕ → ℕ

/-- Embeds lines 252-274: `self._starting_beat_cache.size == 0` reads the
`size` attribute of the cache; with the default `None` this raises
`AttributeError` before the downbeat tracker can run.  An empty array makes
madmom compute the downbeats, a non-empty one is used directly. -/
def select_downbeats (cache : Option (List (ℚ × ℚ))) (madmom : Unit → List (ℚ × ℚ)) :
    Except String (List (ℚ × ℚ)) :=
  match cache with
  | none => Except.error "AttributeError: NoneType object has no attribute size"
  | some arr => if arr.length = 0 then Except.ok (madmom ()) else Except.ok arr

/-- The read-only result object of a completed run (§6 of the spec; the
attributes set by `__process_audio`). -/
structure JukeboxOutput where
  duration : ℚ
  sample_rate : ℕ
  tempo : ℚ
  rawLen : ℕ
  clusters : ℕ
  segments : ℤ
  beats : List Beat
  outro : List Beat
  play_vector : List PlayVectorEntry

/-- The front half of `__process_audio` (lines 214-530) for the default
configuration `clusters=0, use_v1=False`: cache check and downbeat
selection, silhouette-based cluster selection (`best_labels` stays `None`
when no candidate ever scored at least the initial 0, in which case the
Python `zip` over `seg_ids=None` raises `TypeError`), the beat-tuple zip
truncated to `len(btz) = len(downbeats)`, byte rate
`int(round(len(raw_audio) / duration))`, beat assembly, the fade
truncation (an empty `info` raises `ZeroDivisionError` computing the mean
amplitude), id assignment, and the `next`/`jump_candidates` loop.  Returns
`(info, beats, n_clusters)`. -/
def pipeline_front (cache : Option (List (ℚ × ℚ))) (ext : Externals) (start_beat : ℕ) :
    Except String (List Beat × List Beat × ℕ) :=
  match select_downbeats cache (fun _ => ext.madmom) with
  | Except.error e => Except.error e
  | Except.ok downbeats =>
    match compute_best_cluster_with_sil ext.sil ext.kmeansLabels with
    | Except.error e => Except.error e
    | Except.ok (n_clusters, best_labels) =>
      match best_labels with
      | none => Except.error "TypeError: zip argument must support iteration"
      | some seg_ids =>
        let bps := pyRound ((ext.rawLen : ℚ) / ext.duration)
        let beat_tuples := (ext.beatTimes.zip (seg_ids.zip ext.amps)).take downbeats.length
        let info := buildInfo beat_tuples ext.duration bps
        if info.length = 0 then
          Except.error "ZeroDivisionError: division by zero"
        else
          let beats := assign_ids (truncate_to_fade info start_beat)
          Except.ok (info, assign_next_and_jumps beats start_beat, n_clusters)

/-- Embeds `InfiniteJukebox.__process_audio` end to end for the default
configuration (`clusters=0`, `use_v1=False`): the front half above, then
`self.segments = max(b['segment'] for b in beats) + 1` (Python `max`
raises on an empty list), the `last_chance` override, the outro slice of
`info`, and the play-vector generation.  On success every output attribute
is set; on any raise nothing is. -/
def process_audio (cache : Option (List (ℚ × ℚ))) (ext : Externals) (start_beat : ℕ) :
    Except String JukeboxOutput :=
  match pipeline_front cache ext start_beat with
  | Except.error e => Except.error e
  | Except.ok (info, beats, n_clusters) =>
    match (beats.map (fun b => b.segment)).max? with
    | none => Except.error "max() arg is an empty sequence"
    | some mx =>
      let segments := mx + 1
      match apply_last_chance beats with
      | Except.error e => Except.error e
      | Except.ok (final, last_chance) =>
        let outro_start := last_chance + 1 + start_beat
        let outro := if info.length ≤ outro_start then [] else info.drop outro_start
        match create_play_vector final start_beat segments ext.tempo ext.rng with
        | Except.error e => Except.error e
        | Except.ok play_vector =>
          Except.ok { duration := ext.duration, sample_rate := 44100, tempo := ext.tempo,
                      rawLen := ext.rawLen, clusters := n_clusters, segments := segments,
                      beats := final, outro := outro, play_vector := play_vector }

/-- The fitness score of candidate cluster count `k` (line 848):
`n_clusters * silhouette_avg * ratio * orphan_scaler`, where `(ratio, minSeg)`
are the values `__segment_stats_from_labels` returned for `k`'s labels. -/
def clusterFitness (sil : ℕ → ℚ) (r : ℕ → ℚ) (m : ℕ → ℕ) (k : ℕ) : ℚ :=
  (k : ℚ) * sil k * r k * (if m k = 1 then 8/10 else 1)

/-- The start_index rule exactly as claim C3 words it: the *fractional part*
of `start * bytes_per_second`, taken modulo 2, decides between ceiling and
truncation. -/
def claim_start_index (start : ℚ) (bps : ℤ) : ℤ :=
  let x := start * (bps : ℚ)
  if qmod2 (x - ⌊x⌋) > 3/2 then ⌈x⌉ else truncQ x

/-- An eight-beat example track (clusters 0,0,1,1,0,0,1,1, hence segments
0,0,1,1,2,2,3,3 and in-segment positions 0,1,0,1,0,1,0,1) fed to the
jump-graph stage in the theorems below. -/
def exampleBeats8 : List Beat :=
  [{ cluster := 0, segment := 0, is := 0 }, { cluster := 0, segment := 0, is := 1 },
   { cluster := 1, segment := 1, is := 0 }, { cluster := 1, segment := 1, is := 1 },
   { cluster := 0, segment := 2, is := 0 }, { cluster := 0, segment := 2, is := 1 },
   { cluster := 1, segment := 3, is := 0 }, { cluster := 1, segment := 3, is := 1 }]

/-- The jump-graph stage output on `exampleBeats8` (its computation is
checked by kernel evaluation in the theorems below): `last_chance` is 7 and
beat 7's `next` was overridden to `min([4]) = 4`. -/
def exampleFinal8 : List Beat :=
  [{ cluster := 0, segment := 0, is := 0, id := 0, quartile := 0, next := 1, jump_candidates := [5] },
   { cluster := 0, segment := 0, is := 1, id := 1, quartile := 0, next := 2, jump_candidates := [6] },
   { cluster := 1, segment := 1, is := 0, id := 2, quartile := 1, next := 3, jump_candidates := [7] },
   { cluster := 1, segment := 1, is := 1, id := 3, quartile := 1, next := 4, jump_candidates := [0] },
   { cluster := 0, segment := 2, is := 0, id := 4, quartile := 2, next := 5, jump_candidates := [1] },
   { cluster := 0, segment := 2, is := 1, id := 5, quartile := 2, next := 6, jump_candidates := [2] },
   { cluster := 1, segment := 3, is := 0, id := 6, quartile := 3, next := 7, jump_candidates := [3] },
   { cluster := 1, segment := 3, is := 1, id := 7, quartile := 3, next := 4, jump_candidates := [4] }]

/-- A small concrete oracle bundle used to instantiate the pipeline-level
theorems below. -/
def exampleExternals : Externals :=
  { rawLen := 0, duration := 1, tempo := 120, beatTimes := [], amps := [],
    madmom := [], sil := fun _ => 1, kmeansLabels := fun _ => [0, 1, 0, 1],
    rng := fun _ => 0 }

theorem pyRound_intCast (z : ℤ) : pyRound (z : ℚ) = z := by
  unfold pyRound
  simp

theorem mentry_of_map_range (n : ℕ) (f : ℕ → ℕ → ℚ) (i j : ℕ)
    (hi : i < n) (hj : j < n) :
    mentry ((List.range n).map fun a => (List.range n).map fun b => f a b) i j = f i j := by
  simp [mentry, List.getD_eq_getElem?_getD, List.getElem?_map, List.getElem?_range, hi, hj]

theorem symmetrize_entry_comm (Rf : List (List ℚ)) (i j : ℕ) :
    (if i ≤ j then (mentry Rf i j + mentry Rf j i) / 2
     else (mentry Rf j i + mentry Rf i j) / 2) = (mentry Rf i j + mentry Rf j i) / 2 := by
  by_cases h : i ≤ j
  · simp [h]
  · simp [h, add_comm]

/-- C6: for every square n-by-n matrix M the symmetrizer returns M' with
M'[i,j] = M'[j,i] = (M[i,j] + M[j,i]) / 2, so M' equals its own transpose;
in particular [[1,2,3],[4,5,6],[7,8,9]] maps to [[1,3,5],[3,5,7],[5,7,9]]. -/
theorem C6_symmetrizer :
    (∀ (Rf M' : List (List ℚ)), (Rf.headD []).length = Rf.length →
      symmetrize_matrix Rf = Except.ok M' →
      (∀ i j, i < Rf.length → j < Rf.length →
        mentry M' i j = (mentry Rf i j + mentry Rf j i) / 2 ∧
        mentry M' j i = (mentry Rf i j + mentry Rf j i) / 2) ∧
      transposeSq M' = M') ∧
    symmetrize_matrix [[1,2,3],[4,5,6],[7,8,9]] = Except.ok [[1,3,5],[3,5,7],[5,7,9]] := by
  constructor
  · intro Rf M' hsq hok
    simp only [symmetrize_matrix, hsq, ne_eq, not_true_eq_false, if_false,
      ite_not, if_true, reduceIte, Except.ok.injEq] at hok
    have hentry : ∀ i j, i < Rf.length → j < Rf.length →
        mentry M' i j = (mentry Rf i j + mentry Rf j i) / 2 := by
      intro i j hi hj
      rw [← hok, mentry_of_map_range _ _ i j hi hj, symmetrize_entry_comm]
    have hlen : M'.length = Rf.length := by
      rw [← hok]; simp
    constructor
    · intro i j hi hj
      refine ⟨hentry i j hi hj, ?_⟩
      rw [hentry j i hj hi, add_comm]
    · unfold transposeSq
      rw [hlen]
      conv_rhs => rw [← hok]
      apply List.map_congr_left
      intro i hi
      apply List.map_congr_left
      intro j hj
      rw [List.mem_range] at hi hj
      rw [hentry j i hj hi, symmetrize_entry_comm Rf i j, add_comm]
  · exact of_decide_eq_true (by with_unfolding_all rfl)

theorem C6_symmetrizer_witness :
    mentry [[1,3,5],[3,5,7],[5,7,9]] 0 1 = (mentry [[1,2,3],[4,5,6],[7,8,9]] 0 1 +
      mentry [[1,2,3],[4,5,6],[7,8,9]] 1 0) / 2 ∧
    transposeSq [[1,3,5],[3,5,7],[5,7,9]] = [[1,3,5],[3,5,7],[5,7,9]] := by
  have h := C6_symmetrizer.1 [[1,2,3],[4,5,6],[7,8,9]] [[1,3,5],[3,5,7],[5,7,9]]
    (of_decide_eq_true (by with_unfolding_all rfl))
    (of_decide_eq_true (by with_unfolding_all rfl))
  exact ⟨(h.1 0 1 (by decide) (by decide)).1, h.2⟩

/-- C8: every non-square input makes the symmetrizer raise the shape error
(the ValueError of line 183, the spec's `ShapeError`) and return no value;
in particular the 2x3 input [[1,2,3],[4,5,6]] raises it. -/
theorem C8_symmetrizer_nonsquare :
    (∀ Rf : List (List ℚ), (Rf.headD []).length ≠ Rf.length →
      symmetrize_matrix Rf = Except.error "Input matrix must be square for symmetrization.") ∧
    symmetrize_matrix [[1,2,3],[4,5,6]] =
      Except.error "Input matrix must be square for symmetrization." := by
  constructor
  · intro Rf h
    simp only [symmetrize_matrix, ne_eq, ite_not]
    rw [if_neg (fun hc => h hc.symm)]
  · exact of_decide_eq_true (by with_unfolding_all rfl)

theorem C8_symmetrizer_nonsquare_witness :
    symmetrize_matrix [[(1:ℚ),2],[3,4],[5,6]] =
      Except.error "Input matrix must be square for symmetrization." :=
  C8_symmetrizer_nonsquare.1 [[1,2],[3,4],[5,6]]
    (of_decide_eq_true (by with_unfolding_all rfl))

/-- C3 counterexample: for the beat starting at 37/20 s with
bytes_per_second = 2, the value 3.7 satisfies 3.7 % 2 = 1.7 > 1.5, so the
code takes the ceiling 4; the claim's rule ("the fractional part of
start * bytes_per_second taken modulo 2") computes 0.7 % 2 = 0.7, which does
not exceed 1.5, and predicts the truncation 3. -/
theorem C3_counterexample :
    ((buildInfo [(0, 0, 1), (37/20, 0, 1)] 4 2).getD 1 default).start_index = 4 ∧
    claim_start_index (37/20) 2 = 3 ∧ (4 : ℤ) ≠ 3 :=
  of_decide_eq_true (by with_unfolding_all rfl)

/-- C3 amended: start_index equals ceil(start * bytes_per_second) when the
*whole value* start * bytes_per_second taken modulo 2 exceeds 1.5 (not its
fractional part), and the truncation of start * bytes_per_second otherwise;
stop_index always equals ceil((start + duration) * bytes_per_second). -/
theorem C3_start_index_rule :
    ∀ (tuples : List (ℚ × ℤ × ℚ)) (D : ℚ) (bps : ℤ), ∀ b ∈ buildInfo tuples D bps,
      b.start_index = (if qmod2 (b.start * (bps : ℚ)) > 3/2 then ⌈b.start * (bps : ℚ)⌉
                       else truncQ (b.start * (bps : ℚ))) ∧
      b.stop_index = ⌈(b.start + b.duration) * (bps : ℚ)⌉ := by
  intro tuples D bps
  suffices h : ∀ (l : List (ℚ × ℤ × ℚ)) (lc cs : ℤ) (sb : ℕ),
      ∀ b ∈ buildInfoAux D bps l lc cs sb,
      b.start_index = (if qmod2 (b.start * (bps : ℚ)) > 3/2 then ⌈b.start * (bps : ℚ)⌉
                       else truncQ (b.start * (bps : ℚ))) ∧
      b.stop_index = ⌈(b.start + b.duration) * (bps : ℚ)⌉ by
    exact h tuples (-1) (-1) 0
  intro l
  induction l with
  | nil => intro lc cs sb b hb; simp [buildInfoAux] at hb
  | cons t rest ih =>
    intro lc cs sb b hb
    rcases rest with _ | ⟨t2, rest2⟩
    · rw [buildInfoAux.eq_2] at hb
      rcases List.mem_cons.mp hb with h | h
      · subst h
        exact ⟨rfl, rfl⟩
      · exact ih _ _ _ b h
    · rw [buildInfoAux.eq_3] at hb
      rcases List.mem_cons.mp hb with h | h
      · subst h
        exact ⟨rfl, rfl⟩
      · exact ih _ _ _ b h

theorem C3_start_index_rule_witness :
    ((buildInfo [(0, 0, 1), (37/20, 0, 1)] 4 2).getD 1 default).start_index =
      (if qmod2 (((buildInfo [(0, 0, 1), (37/20, 0, 1)] 4 2).getD 1 default).start * ((2:ℤ) : ℚ)) > 3/2
       then ⌈((buildInfo [(0, 0, 1), (37/20, 0, 1)] 4 2).getD 1 default).start * ((2:ℤ) : ℚ)⌉
       else truncQ (((buildInfo [(0, 0, 1), (37/20, 0, 1)] 4 2).getD 1 default).start * ((2:ℤ) : ℚ))) :=
  (C3_start_index_rule [(0, 0, 1), (37/20, 0, 1)] 4 2
    ((buildInfo [(0, 0, 1), (37/20, 0, 1)] 4 2).getD 1 default)
    (of_decide_eq_true (by with_unfolding_all rfl))).1

/-- C7: the claim says the helper returns min_seg as the shortest run length
anywhere in the sequence including the final run; the code appends a run's
length to `segment_lengths` only when the next run begins, so the final run
is always excluded.  On [0,0,1] the runs are 2,1: the code returns
min_seg = 2 (ratio 2/2 = 1), while the shortest run is the final one, of
length 1.  This contradicts the function's own docstring ("min segment
size value"). -/
theorem C7_segment_stats_skips_final_run :
    segment_stats_from_labels [0, 0, 1] = Except.ok (1, 2) ∧
    shortest_run [0, 0, 1] = 1 ∧ (2 : ℕ) ≠ 1 :=
  of_decide_eq_true (by with_unfolding_all rfl)

theorem ksList_sorted : ksList.Pairwise (· > ·) := by decide

theorem cbcAux_step (sil : ℕ → ℚ) (labelsOf : ℕ → List ℤ) (r : ℕ → ℚ) (m : ℕ → ℕ)
    (k : ℕ) (rest : List ℕ) (bs : ℚ) (bk : ℕ) (bl : Option (List ℤ))
    (hk : segment_stats_from_labels (labelsOf k) = Except.ok (r k, m k)) :
    cbcAux sil labelsOf (k :: rest) (bs, bk, bl) =
      (if bs ≤ clusterFitness sil r m k then
        cbcAux sil labelsOf rest (clusterFitness sil r m k, k, some (labelsOf k))
      else cbcAux sil labelsOf rest (bs, bk, bl)) := by
  rw [cbcAux.eq_2, hk]
  rfl

/-- Invariant of the selector fold: the run succeeds when all per-candidate
segment statistics do, the final best score dominates the initial score and
every candidate's fitness, and if some candidate's fitness reaches the
initial score, the recorded best is an encountered candidate whose fitness
equals the final best score and which is the *least* candidate attaining it
(the update uses `>=` on a descending scan). -/
theorem cbcAux_spec (sil : ℕ → ℚ) (labelsOf : ℕ → List ℤ) (r : ℕ → ℚ) (m : ℕ → ℕ) :
    ∀ (l : List ℕ), l.Pairwise (· > ·) →
    (∀ k ∈ l, segment_stats_from_labels (labelsOf k) = Except.ok (r k, m k)) →
    ∀ bs : ℚ, ∀ bk : ℕ, ∀ bl : Option (List ℤ),
    ∃ st' : ℚ × ℕ × Option (List ℤ),
      cbcAux sil labelsOf l (bs, bk, bl) = Except.ok st' ∧
      bs ≤ st'.1 ∧
      (∀ k ∈ l, clusterFitness sil r m k ≤ st'.1) ∧
      ((∃ k ∈ l, bs ≤ clusterFitness sil r m k) →
        st'.2.1 ∈ l ∧ clusterFitness sil r m st'.2.1 = st'.1 ∧
        st'.2.2 = some (labelsOf st'.2.1) ∧
        ∀ j ∈ l, clusterFitness sil r m j = st'.1 → st'.2.1 ≤ j) ∧
      ((∀ k ∈ l, clusterFitness sil r m k < bs) → st' = (bs, bk, bl)) := by
  intro l
  induction l with
  | nil =>
    intro _ _ bs bk bl
    refine ⟨(bs, bk, bl), rfl, le_refl _, by simp, ?_, fun _ => rfl⟩
    rintro ⟨k, hk, -⟩
    exact absurd hk (List.not_mem_nil k)
  | cons k rest ih =>
    intro hpair hstats bs bk bl
    have hk : segment_stats_from_labels (labelsOf k) = Except.ok (r k, m k) :=
      hstats k (List.mem_cons_self k rest)
    have hrest : ∀ j ∈ rest, segment_stats_from_labels (labelsOf j) = Except.ok (r j, m j) :=
      fun j hj => hstats j (List.mem_cons_of_mem k hj)
    have hgt : ∀ j ∈ rest, j < k := fun j hj => (List.pairwise_cons.mp hpair).1 j hj
    have hpr : rest.Pairwise (· > ·) := (List.pairwise_cons.mp hpair).2
    rw [cbcAux_step sil labelsOf r m k rest bs bk bl hk]
    by_cases hc : bs ≤ clusterFitness sil r m k
    · rw [if_pos hc]
      obtain ⟨st', hrun, hle, hub, hsel, hid⟩ :=
        ih hpr hrest (clusterFitness sil r m k) k (some (labelsOf k))
      refine ⟨st', hrun, le_trans hc hle, ?_, ?_, ?_⟩
      · intro j hj
        rcases List.mem_cons.mp hj with h | h
        · rw [h]; exact hle
        · exact hub j h
      · intro _
        by_cases hex : ∃ j ∈ rest, clusterFitness sil r m k ≤ clusterFitness sil r m j
        · obtain ⟨hmem, hfit, hlab, hmin⟩ := hsel hex
          refine ⟨List.mem_cons_of_mem k hmem, hfit, hlab, ?_⟩
          intro j hj hfj
          rcases List.mem_cons.mp hj with h | h
          · rw [h]
            exact le_of_lt (hgt st'.2.1 hmem)
          · exact hmin j h hfj
        · push_neg at hex
          have hst : st' = (clusterFitness sil r m k, k, some (labelsOf k)) := hid hex
          rw [hst]
          refine ⟨List.mem_cons_self k rest, rfl, rfl, ?_⟩
          intro j hj hfj
          rcases List.mem_cons.mp hj with h | h
          · rw [h]
          · exact absurd (le_of_eq hfj.symm) (not_le.mpr (by simpa [hst] using hex j h))
      · intro hall
        exact absurd hc (not_le.mpr (hall k (List.mem_cons_self k rest)))
    · rw [if_neg hc]
      obtain ⟨st', hrun, hle, hub, hsel, hid⟩ := ih hpr hrest bs bk bl
      refine ⟨st', hrun, hle, ?_, ?_, ?_⟩
      · intro j hj
        rcases List.mem_cons.mp hj with h | h
        · rw [h]
          exact le_trans (le_of_lt (not_le.mp hc)) hle
        · exact hub j h
      · rintro ⟨j, hj, hbs⟩
        rcases List.mem_cons.mp hj with h | h
        · exact absurd (h ▸ hbs) hc
        · obtain ⟨hmem, hfit, hlab, hmin⟩ := hsel ⟨j, h, hbs⟩
          refine ⟨List.mem_cons_of_mem k hmem, hfit, hlab, ?_⟩
          intro j' hj' hfj'
          rcases List.mem_cons.mp hj' with h' | h'
          · subst h'
            exact absurd (hfj' ▸ hle) (by simpa using not_le.mp hc)
          · exact hmin j' h' hfj'
      · intro hall
        exact hid (fun j hj => hall j (List.mem_cons_of_mem k hj))

/-- C2 counterexample: with silhouette oracle `5 / (8 k)` and constant
k-means labels `[0, 1, 0, 1]` (ratio 2, an orphan, so scaler 0.8), the
fitness `k * (5/(8k)) * 2 * 0.8 = 1` is identical for every candidate
`k = 48 .. 3`.  The claim says the tie goes to the highest k (48); the
code's `>=` update on the descending scan keeps replacing the best, so it
returns 3, the lowest. -/
theorem C2_counterexample :
    compute_best_cluster_with_sil (fun k => 5 / (8 * (k : ℚ))) (fun _ => ([0, 1, 0, 1] : List ℤ)) =
      Except.ok (3, some [0, 1, 0, 1]) ∧ (3 : ℕ) ≠ 48 :=
  of_decide_eq_true (by with_unfolding_all rfl)

/-- C2 amended: when clusters=0 and use_v1=False the selector evaluates
every candidate k from 48 down to 3 and scores each as
`fitness_k = k * silhouette_average * (segment count / cluster count) *
(0.8 if the minimum tracked segment length is 1 else 1.0)`.  Provided some
candidate's fitness is at least the initial best score 0, it returns a k
attaining the maximum fitness together with that k's labels — and when
several k tie on the maximum, the *lowest* such k is selected (not the
highest: the descending scan updates on `>=`). -/
theorem C2_cluster_selector (sil : ℕ → ℚ) (labelsOf : ℕ → List ℤ) (r : ℕ → ℚ) (m : ℕ → ℕ)
    (hstats : ∀ k ∈ ksList, segment_stats_from_labels (labelsOf k) = Except.ok (r k, m k))
    (hpos : ∃ k ∈ ksList, 0 ≤ clusterFitness sil r m k) :
    ∃ kb : ℕ, compute_best_cluster_with_sil sil labelsOf = Except.ok (kb, some (labelsOf kb)) ∧
      kb ∈ ksList ∧
      (∀ k ∈ ksList, clusterFitness sil r m k ≤ clusterFitness sil r m kb) ∧
      (∀ k ∈ ksList, clusterFitness sil r m k = clusterFitness sil r m kb → kb ≤ k) := by
  obtain ⟨st', hrun, -, hub, hsel, -⟩ :=
    cbcAux_spec sil labelsOf r m ksList ksList_sorted hstats 0 0 none
  obtain ⟨hmem, hfit, hlab, hmin⟩ := hsel hpos
  refine ⟨st'.2.1, ?_, hmem, ?_, ?_⟩
  · unfold compute_best_cluster_with_sil
    rw [hrun, ← hlab]
    rfl
  · intro j hj
    rw [hfit]
    exact hub j hj
  · intro j hj hfj
    exact hmin j hj (by rw [hfj, hfit])

theorem C2_cluster_selector_witness :
    ∃ kb : ℕ, compute_best_cluster_with_sil (fun _ => 1) (fun _ => ([0, 1, 0, 1] : List ℤ)) =
      Except.ok (kb, some [0, 1, 0, 1]) ∧ kb ∈ ksList := by
  obtain ⟨kb, hrun, hmem, -, -⟩ := C2_cluster_selector (fun _ => 1)
    (fun _ => ([0, 1, 0, 1] : List ℤ)) (fun _ => 2) (fun _ => 1)
    (of_decide_eq_true (by with_unfolding_all rfl))
    (of_decide_eq_true (by with_unfolding_all rfl))
  exact ⟨kb, hrun, hmem⟩

theorem mem_getD {α : Type} [Inhabited α] (l : List α) (k : ℕ) (h : k < l.length) (d : α) :
    l.getD k d ∈ l := by
  rw [List.getD_eq_getElem?_getD, List.getElem?_eq_getElem h]
  simp

theorem headD_mem {α : Type} (l : List α) (h : l ≠ []) (d : α) : l.headD d ∈ l := by
  cases l with
  | nil => exact absurd rfl h
  | cons a l => simp [List.headD]

theorem find?_getD_lt (l : List ℕ) (p : ℕ → Bool) (len : ℕ) (h0 : 0 < len)
    (hl : ∀ c ∈ l, c < len) : ((l.find? p).getD 0) < len := by
  rcases hf : l.find? p with _ | c
  · simpa using h0
  · simpa using hl c (List.mem_of_find?_eq_some hf)

theorem getD_mod_lt (l : List ℕ) (r len : ℕ) (hne : ¬ l.length = 0)
    (hl : ∀ c ∈ l, c < len) : l.getD (r % l.length) 0 < len :=
  hl _ (mem_getD l (r % l.length) (Nat.mod_lt _ (Nat.pos_of_ne_zero hne)) 0)

/-- Every beat the walker can move to stays inside `beats`, and every id it
emits is a valid index, provided the jump graph is well-formed (ids, `next`
pointers and jump candidates all within range, `loop_bounds_begin` valid). -/
theorem walkStep_valid (beats : List Beat) (lbb recent_depth numChoices : ℕ) (mbj : ℤ)
    (rng : ℕ → ℕ) (st : WalkState)
    (hne : beats ≠ [])
    (hlbb : lbb < beats.length)
    (hvalid : ∀ b ∈ beats, b.id < beats.length ∧ b.next < beats.length ∧
      ∀ c ∈ b.jump_candidates, c < beats.length)
    (hcur : st.beat ∈ beats) :
    (walkStep beats lbb recent_depth numChoices mbj rng st).2.beat ∈ beats ∧
    (walkStep beats lbb recent_depth numChoices mbj rng st).1.beat < beats.length := by
  have hpos : 0 < beats.length := List.length_pos.mpr hne
  have hnext : st.beat.next < beats.length := (hvalid st.beat hcur).2.1
  have hcand : ∀ c ∈ st.beat.jump_candidates, c < beats.length := (hvalid st.beat hcur).2.2
  have hgd : ∀ k, k < beats.length → beats.getD k default ∈ beats := fun k hk =>
    mem_getD beats k hk default
  have hsub : ∀ (q : ℕ → Bool), ∀ c ∈ st.beat.jump_candidates.filter q, c < beats.length :=
    fun q c hc => hcand c (List.mem_filter.mp hc).1
  simp only [walkStep]
  split
  · split
    · -- the recently-played segment is already in the deque
      split
      · split
        · exact ⟨hgd _ (find?_getD_lt _ _ _ hpos (hsub _)),
            (hvalid _ (hgd _ (find?_getD_lt _ _ _ hpos (hsub _)))).1⟩
        · split
          · exact ⟨hgd _ hlbb, (hvalid _ (hgd _ hlbb)).1⟩
          · exact ⟨hgd _ hnext, (hvalid _ (hgd _ hnext)).1⟩
      · rename_i hnrne
        exact ⟨hgd _ (getD_mod_lt _ _ _ hnrne (hsub _)),
          (hvalid _ (hgd _ (getD_mod_lt _ _ _ hnrne (hsub _)))).1⟩
    · -- the segment is pushed into the deque
      split
      · split
        · exact ⟨hgd _ (find?_getD_lt _ _ _ hpos (hsub _)),
            (hvalid _ (hgd _ (find?_getD_lt _ _ _ hpos (hsub _)))).1⟩
        · split
          · exact ⟨hgd _ hlbb, (hvalid _ (hgd _ hlbb)).1⟩
          · exact ⟨hgd _ hnext, (hvalid _ (hgd _ hnext)).1⟩
      · rename_i hnrne
        exact ⟨hgd _ (getD_mod_lt _ _ _ hnrne (hsub _)),
          (hvalid _ (hgd _ (getD_mod_lt _ _ _ hnrne (hsub _)))).1⟩
  · -- sequential playback
    exact ⟨hgd _ hnext, hnext⟩

theorem walkAux_length (beats : List Beat) (lbb recent_depth numChoices : ℕ)
    (mbj : ℤ) (rng : ℕ → ℕ) :
    ∀ (n : ℕ) (st : WalkState),
      (walkAux beats lbb recent_depth numChoices mbj rng n st).length = n := by
  intro n
  induction n with
  | zero => intro st; rfl
  | succ n ih =>
    intro st
    rw [walkAux]
    simp [ih]

theorem walkAux_valid (beats : List Beat) (lbb recent_depth numChoices : ℕ)
    (mbj : ℤ) (rng : ℕ → ℕ)
    (hne : beats ≠ []) (hlbb : lbb < beats.length)
    (hvalid : ∀ b ∈ beats, b.id < beats.length ∧ b.next < beats.length ∧
      ∀ c ∈ b.jump_candidates, c < beats.length) :
    ∀ (n : ℕ) (st : WalkState), st.beat ∈ beats →
      ∀ e ∈ walkAux beats lbb recent_depth numChoices mbj rng n st,
        e.beat < beats.length := by
  intro n
  induction n with
  | zero => intro st _ e he; simp [walkAux] at he
  | succ n ih =>
    intro st hst e he
    rw [walkAux] at he
    have hstep := walkStep_valid beats lbb recent_depth numChoices mbj rng st
      hne hlbb hvalid hst
    rcases List.mem_cons.mp he with h | h
    · rw [h]
      exact hstep.2
    · exact ih _ hstep.1 e h

/-- On any input whose `max_sequence_len` leaves `randrange` a non-empty
range, the play vector is produced and has `1024 * 1024 + 1` entries: the
initial entry appended before the loop plus one entry per iteration. -/
theorem create_play_vector_length (beats : List Beat) (lbb : ℕ) (segments : ℤ)
    (tempo : ℚ) (rng : ℕ → ℕ) (h16 : 16 < maxSequenceLen tempo) :
    ∃ pv, create_play_vector beats lbb segments tempo rng = Except.ok pv ∧
      pv.length = 1024 * 1024 + 1 := by
  unfold create_play_vector
  rw [if_neg (not_le.mpr h16)]
  exact ⟨_, rfl, by simp [walkAux_length]⟩

/-- C1 counterexample: on a one-beat input (tempo 120, so
`max_sequence_len = 48`) the play vector has `2^20 + 1 = 1048577` entries —
the entry `{'beat': 0, ...}` appended at line 590 plus the `1024 * 1024`
entries appended by the loop of line 615 — and not `2^20 = 1048576` as the
claim states. -/
theorem C1_counterexample :
    (create_play_vector [(default : Beat)] 0 1 120 (fun _ => 0)).map List.length =
      Except.ok 1048577 ∧ (1048577 : ℕ) ≠ 1048576 := by
  obtain ⟨pv, hok, hlen⟩ := create_play_vector_length [(default : Beat)] 0 1 120 (fun _ => 0)
    (of_decide_eq_true (by with_unfolding_all rfl))
  refine ⟨?_, by decide⟩
  rw [hok]
  show Except.ok pv.length = Except.ok 1048577
  rw [hlen]

/-- C1 amended: after a successful run the play vector has exactly
`2^20 + 1` entries (the pre-loop entry for beat 0 plus one entry per loop
iteration — not `2^20`), and every entry's `beat` field is a valid index
into `beats`.  The hypotheses are the well-formedness guarantees the
assembled jump graph provides: non-empty beats, valid `start_beat`, and
ids, `next` pointers and jump candidates within range; `randrange` must
also see a non-empty range, else the run raises. -/
theorem C1_play_vector (beats : List Beat) (lbb : ℕ) (segments : ℤ) (tempo : ℚ)
    (rng : ℕ → ℕ)
    (hne : beats ≠ []) (hlbb : lbb < beats.length)
    (hvalid : ∀ b ∈ beats, b.id < beats.length ∧ b.next < beats.length ∧
      ∀ c ∈ b.jump_candidates, c < beats.length)
    (h16 : 16 < maxSequenceLen tempo) :
    ∃ pv, create_play_vector beats lbb segments tempo rng = Except.ok pv ∧
      pv.length = 1024 * 1024 + 1 ∧ ∀ e ∈ pv, e.beat < beats.length := by
  unfold create_play_vector
  rw [if_neg (not_le.mpr h16)]
  refine ⟨_, rfl, by simp [walkAux_length], ?_⟩
  intro e he
  rcases List.mem_cons.mp he with h | h
  · rw [h]
    exact List.length_pos.mpr hne
  · exact walkAux_valid beats lbb _ _ _ rng hne hlbb hvalid _ _
      (headD_mem beats hne default) e h

theorem C1_play_vector_witness :
    (create_play_vector [(default : Beat)] 0 1 120 (fun _ => 0)).map List.length =
      Except.ok 1048577 := by
  obtain ⟨pv, hok, hlen, -⟩ := C1_play_vector [(default : Beat)] 0 1 120 (fun _ => 0)
    (of_decide_eq_true (by with_unfolding_all rfl))
    (of_decide_eq_true (by with_unfolding_all rfl))
    (of_decide_eq_true (by with_unfolding_all rfl))
    (of_decide_eq_true (by with_unfolding_all rfl))
  rw [hok]
  show Except.ok pv.length = Except.ok 1048577
  rw [hlen]

theorem buildInfoAux_starts (D : ℚ) (bps : ℤ) :
    ∀ (l : List (ℚ × ℤ × ℚ)) (lc cs : ℤ) (sb : ℕ),
      (buildInfoAux D bps l lc cs sb).map (fun b => b.start) = l.map (fun t => t.1) := by
  intro l
  induction l with
  | nil => intro lc cs sb; rfl
  | cons t rest ih =>
    intro lc cs sb
    rcases rest with _ | ⟨t2, rest2⟩
    · rw [buildInfoAux.eq_2]
      rfl
    · rw [buildInfoAux.eq_3]
      simp only [List.map_cons]
      rw [ih]
      rfl

theorem ceil_trunc_bounds (x : ℚ) (n : ℤ) (hx0 : 0 ≤ x) (hxn : x ≤ (n : ℚ)) :
    (0 ≤ ⌈x⌉ ∧ ⌈x⌉ ≤ n) ∧ (0 ≤ truncQ x ∧ truncQ x ≤ n) := by
  have hc0 : 0 ≤ ⌈x⌉ := Int.ceil_nonneg hx0
  have hcn : ⌈x⌉ ≤ n := Int.ceil_le.mpr hxn
  have htr : truncQ x = ⌊x⌋ := by
    unfold truncQ
    rw [if_neg (not_lt.mpr hx0)]
  refine ⟨⟨hc0, hcn⟩, ?_, ?_⟩
  · rw [htr]
    exact Int.floor_nonneg.mpr hx0
  · rw [htr]
    exact le_trans (Int.floor_le_ceil x) hcn

theorem buildInfoAux_bounds (D : ℚ) (bps : ℤ) (n : ℤ)
    (hbps : 0 ≤ (bps : ℚ)) (hD : 0 ≤ D) (hDn : D * (bps : ℚ) = (n : ℚ)) :
    ∀ (l : List (ℚ × ℤ × ℚ)), (∀ t ∈ l, 0 ≤ t.1 ∧ t.1 ≤ D) →
    ∀ (lc cs : ℤ) (sb : ℕ), ∀ b ∈ buildInfoAux D bps l lc cs sb,
      0 ≤ b.start_index ∧ b.start_index ≤ n ∧ 0 ≤ b.stop_index ∧ b.stop_index ≤ n := by
  have hmul : ∀ x : ℚ, 0 ≤ x → x ≤ D → 0 ≤ x * (bps : ℚ) ∧ x * (bps : ℚ) ≤ (n : ℚ) := by
    intro x hx0 hxD
    exact ⟨mul_nonneg hx0 hbps, hDn ▸ mul_le_mul_of_nonneg_right hxD hbps⟩
  intro l
  induction l with
  | nil => intro _ lc cs sb b hb; simp [buildInfoAux] at hb
  | cons t rest ih =>
    intro hl lc cs sb b hb
    have ht := hl t (List.mem_cons_self t rest)
    obtain ⟨hx0, hxn⟩ := hmul t.1 ht.1 ht.2
    have hstart : 0 ≤ (if qmod2 (t.1 * (bps : ℚ)) > 3/2 then ⌈t.1 * (bps : ℚ)⌉
          else truncQ (t.1 * (bps : ℚ))) ∧
        (if qmod2 (t.1 * (bps : ℚ)) > 3/2 then ⌈t.1 * (bps : ℚ)⌉
          else truncQ (t.1 * (bps : ℚ))) ≤ n := by
      have h := ceil_trunc_bounds (t.1 * (bps : ℚ)) n hx0 hxn
      by_cases hq : qmod2 (t.1 * (bps : ℚ)) > 3/2
      · simp only [if_pos hq]
        exact ⟨h.1.1, h.1.2⟩
      · simp only [if_neg hq]
        exact ⟨h.2.1, h.2.2⟩
    rcases rest with _ | ⟨t2, rest2⟩
    · rw [buildInfoAux.eq_2] at hb
      rcases List.mem_cons.mp hb with h | h
      · subst h
        refine ⟨hstart.1, hstart.2, ?_, ?_⟩
        · show 0 ≤ ⌈(t.1 + (D - t.1)) * (bps : ℚ)⌉
          have heq : t.1 + (D - t.1) = D := by ring
          rw [heq]
          exact (ceil_trunc_bounds (D * (bps : ℚ)) n (mul_nonneg hD hbps)
            (le_of_eq hDn)).1.1
        · show ⌈(t.1 + (D - t.1)) * (bps : ℚ)⌉ ≤ n
          have heq : t.1 + (D - t.1) = D := by ring
          rw [heq]
          exact (ceil_trunc_bounds (D * (bps : ℚ)) n (mul_nonneg hD hbps)
            (le_of_eq hDn)).1.2
      · simp [buildInfoAux] at h
    · rw [buildInfoAux.eq_3] at hb
      have ht2 := hl t2 (List.mem_cons_of_mem t (List.mem_cons_self t2 rest2))
      obtain ⟨hy0, hyn⟩ := hmul t2.1 ht2.1 ht2.2
      rcases List.mem_cons.mp hb with h | h
      · subst h
        refine ⟨hstart.1, hstart.2, ?_, ?_⟩
        · show 0 ≤ ⌈(t.1 + (t2.1 - t.1)) * (bps : ℚ)⌉
          have heq : t.1 + (t2.1 - t.1) = t2.1 := by ring
          rw [heq]
          exact (ceil_trunc_bounds (t2.1 * (bps : ℚ)) n hy0 hyn).1.1
        · show ⌈(t.1 + (t2.1 - t.1)) * (bps : ℚ)⌉ ≤ n
          have heq : t.1 + (t2.1 - t.1) = t2.1 := by ring
          rw [heq]
          exact (ceil_trunc_bounds (t2.1 * (bps : ℚ)) n hy0 hyn).1.2
      · exact ih (fun u hu => hl u (List.mem_cons_of_mem t hu)) _ _ _ b h

/-- C4: with the upstream guarantees (strictly increasing beat times, all
within `[0, duration]`, and the pipeline relation
`duration = len(raw_audio) / 44100`, so `bytes_per_second` rounds to
exactly 44100), every produced beat list has strictly increasing start
times and every `start_index` / `stop_index` lies within the raw audio
buffer; in particular `stop_index <= len(raw_audio)` for every beat,
including the last (whose `stop_index` is exactly
`ceil(duration * bytes_per_second) = len(raw_audio)`). -/
theorem C4_beat_invariants (tuples : List (ℚ × ℤ × ℚ)) (n sb : ℕ) (beats : List Beat)
    (hn : 0 < n)
    (hchain : (tuples.map (fun t => t.1)).Chain' (· < ·))
    (hbound : ∀ t ∈ tuples, 0 ≤ t.1 ∧ t.1 ≤ (n : ℚ) / 44100)
    (hbeats : beats = truncate_to_fade
      (buildInfo tuples ((n : ℚ) / 44100) (pyRound ((n : ℚ) / ((n : ℚ) / 44100)))) sb) :
    (∀ i, i + 1 < beats.length →
      (beats.getD i default).start < (beats.getD (i + 1) default).start) ∧
    (∀ b ∈ beats, 0 ≤ b.start_index ∧ b.start_index ≤ (n : ℤ) ∧
      0 ≤ b.stop_index ∧ b.stop_index ≤ (n : ℤ)) := by
  have hnq : ((n : ℚ)) ≠ 0 := by
    exact_mod_cast Nat.pos_iff_ne_zero.mp hn
  have hquot : (n : ℚ) / ((n : ℚ) / 44100) = 44100 := by
    field_simp
  have hbpsval : pyRound ((n : ℚ) / ((n : ℚ) / 44100)) = 44100 := by
    rw [hquot]
    exact_mod_cast pyRound_intCast 44100
  simp only [truncate_to_fade, buildInfo, hbpsval] at hbeats
  constructor
  · -- strictly increasing starts
    have hsub : List.Sublist (beats.map (fun b => b.start)) (tuples.map (fun t => t.1)) := by
      rw [hbeats, List.map_drop, List.map_take, buildInfoAux_starts]
      exact List.Sublist.trans (List.drop_sublist _ _) (List.take_sublist _ _)
    have hchain2 : (beats.map (fun b => b.start)).Chain' (· < ·) := hchain.sublist hsub
    have hchain3 : beats.Chain' (fun a b => a.start < b.start) :=
      (List.chain'_map (fun b : Beat => b.start)).mp hchain2
    intro i hi
    have hii : i < beats.length := by omega
    have h12 := List.chain'_iff_get.mp hchain3 i (by omega)
    rw [List.getD_eq_getElem?_getD, List.getElem?_eq_getElem hii,
      List.getD_eq_getElem?_getD, List.getElem?_eq_getElem hi]
    simpa using h12
  · -- index bounds
    intro b hb
    rw [hbeats] at hb
    have hb2 := List.mem_of_mem_take (List.mem_of_mem_drop hb)
    exact buildInfoAux_bounds ((n : ℚ) / 44100) 44100 (n : ℤ)
      (by norm_num) (by positivity)
      (by field_simp) tuples hbound (-1) (-1) 0 b hb2

theorem C4_beat_invariants_witness :
    0 ≤ ((truncate_to_fade (buildInfo [(0, 0, 1), (1, 0, 1)] ((88200 : ℚ) / 44100)
        (pyRound ((88200 : ℚ) / ((88200 : ℚ) / 44100)))) 0).getD 0 default).start_index ∧
    ((truncate_to_fade (buildInfo [(0, 0, 1), (1, 0, 1)] ((88200 : ℚ) / 44100)
        (pyRound ((88200 : ℚ) / ((88200 : ℚ) / 44100)))) 0).getD 0 default).start_index ≤
      (88200 : ℤ) := by
  have h := C4_beat_invariants [(0, 0, 1), (1, 0, 1)] 88200 0 _
    (by norm_num)
    (by norm_num [List.chain'_cons, List.chain'_singleton])
    (of_decide_eq_true (by with_unfolding_all rfl))
    rfl
  have hlen2 : (buildInfo [(0, 0, 1), (1, 0, 1)] ((88200 : ℚ) / 44100)
      (pyRound ((88200 : ℚ) / ((88200 : ℚ) / 44100)))).length = 2 := by
    have hs := buildInfoAux_starts ((88200 : ℚ) / 44100)
      (pyRound ((88200 : ℚ) / ((88200 : ℚ) / 44100))) [(0, 0, 1), (1, 0, 1)] (-1) (-1) 0
    have h2 := congrArg List.length hs
    simpa [buildInfo] using h2
  have hpos : 0 < (truncate_to_fade (buildInfo [(0, 0, 1), (1, 0, 1)] ((88200 : ℚ) / 44100)
      (pyRound ((88200 : ℚ) / ((88200 : ℚ) / 44100)))) 0).length := by
    simp only [truncate_to_fade, List.drop_zero, List.length_take]
    refine lt_min (by omega) (by omega)
  have h2 := h.2 _ (mem_getD _ 0 hpos default)
  exact ⟨h2.1, h2.2.1⟩

theorem assign_ids_aux_length (n : ℕ) :
    ∀ (l : List Beat) (i : ℕ), (assign_ids_aux n i l).length = l.length := by
  intro l
  induction l with
  | nil => intro i; rfl
  | cons b l ih => intro i; simp [assign_ids_aux, ih]

theorem assign_ids_aux_id (n : ℕ) :
    ∀ (l : List Beat) (i j : ℕ), j < l.length →
      ((assign_ids_aux n i l).getD j default).id = i + j := by
  intro l
  induction l with
  | nil => intro i j hj; simp at hj
  | cons b l ih =>
    intro i j hj
    cases j with
    | zero => rfl
    | succ j =>
      rw [assign_ids_aux, List.getD_cons_succ]
      rw [ih (i + 1) j (by simpa using hj)]
      omega

theorem assign_ids_id (beats : List Beat) (j : ℕ) (hj : j < (assign_ids beats).length) :
    ((assign_ids beats).getD j default).id = j := by
  rw [assign_ids] at hj ⊢
  rw [assign_ids_aux_length] at hj
  simpa using assign_ids_aux_id beats.length beats 0 j hj

theorem assign_next_aux_length (beats : List Beat) (lbb : ℕ) :
    ∀ (l : List Beat) (i : ℕ), (assign_next_aux beats lbb i l).length = l.length := by
  intro l
  induction l with
  | nil => intro i; rfl
  | cons b l ih => intro i; simp [assign_next_aux, ih]

theorem assign_next_aux_getD (beats : List Beat) (lbb : ℕ) :
    ∀ (l : List Beat) (i j : ℕ), j < l.length →
      (assign_next_aux beats lbb i l).getD j default =
        assignOne beats lbb (i + j) (l.getD j default) := by
  intro l
  induction l with
  | nil => intro i j hj; simp at hj
  | cons b l ih =>
    intro i j hj
    cases j with
    | zero => rfl
    | succ j =>
      rw [assign_next_aux, List.getD_cons_succ, List.getD_cons_succ]
      rw [ih (i + 1) j (by simpa using hj)]
      congr 1
      omega

/-- Structure of `assignOne`: id, segment, cluster, is are untouched; the
record's `next` and `jump_candidates` fields are the computed ones. -/
theorem assignOne_id (beats : List Beat) (lbb i : ℕ) (b : Beat) :
    (assignOne beats lbb i b).id = b.id := rfl

theorem assignOne_segment (beats : List Beat) (lbb i : ℕ) (b : Beat) :
    (assignOne beats lbb i b).segment = b.segment := rfl

/-- Every jump candidate of `assignOne beats lbb i b` is the id of some beat
of `beats`; with ids equal to positions it is a valid position, the beat
there is in a different segment than `b`, and it differs from the computed
`next`. -/
theorem assignOne_candidates (beats : List Beat) (lbb i : ℕ) (b : Beat)
    (hid : ∀ q, q < beats.length → (beats.getD q default).id = q) :
    ∀ c ∈ (assignOne beats lbb i b).jump_candidates,
      c < beats.length ∧ (beats.getD c default).segment ≠ b.segment ∧
      c ≠ (assignOne beats lbb i b).next := by
  intro c hc
  simp only [assignOne] at hc ⊢
  obtain ⟨bx, hbx, hbxid⟩ := List.mem_map.mp hc
  obtain ⟨hbxmem, hpred⟩ := List.mem_filter.mp hbx
  obtain ⟨-, -, -, hseg, hnxt⟩ := of_decide_eq_true hpred
  have hbxbeats : bx ∈ beats := List.mem_of_mem_drop hbxmem
  obtain ⟨q, hq⟩ := List.mem_iff_get.mp hbxbeats
  have hgd : beats.getD q.1 default = bx := by
    rw [List.getD_eq_getElem?_getD, List.getElem?_eq_getElem q.isLt]
    simpa using congrArg some hq
  have hqid : bx.id = q.1 := by
    rw [← hgd]
    exact hid q.1 q.isLt
  have hcq : c = q.1 := by rw [← hbxid, hqid]
  refine ⟨?_, ?_, ?_⟩
  · rw [hcq]; exact q.isLt
  · rw [hcq, hgd]; exact hseg
  · rw [← hbxid]; exact hnxt

theorem assignOne_next_of_ne_last (beats : List Beat) (lbb i : ℕ) (b : Beat)
    (h : i ≠ beats.length - 1) :
    (assignOne beats lbb i b).next = b.id + 1 := by
  simp only [assignOne]
  rw [if_neg h]

theorem getD_of_length_le {α : Type} [Inhabited α] (l : List α) (i : ℕ) (d : α)
    (h : l.length ≤ i) : l.getD i d = d := by
  rw [List.getD_eq_getElem?_getD, List.getElem?_eq_none h]
  rfl

/-- C5 counterexample: an eight-beat track with clusters 0,0,1,1,0,0,1,1
(segments 0,0,1,1,2,2,3,3).  `last_chance` is beat 7; its jump candidates
are `[4]`, and the override sets its `next` to `min([4]) = 4`, which *is* a
member of its `jump_candidates` — contradicting the claim that for every
beat, including last_chance after the override, `b.next` is not a member of
`b.jump_candidates`. -/
theorem C5_counterexample :
    (apply_last_chance (assign_next_and_jumps (assign_ids
        [{ cluster := 0, segment := 0, is := 0 }, { cluster := 0, segment := 0, is := 1 },
         { cluster := 1, segment := 1, is := 0 }, { cluster := 1, segment := 1, is := 1 },
         { cluster := 0, segment := 2, is := 0 }, { cluster := 0, segment := 2, is := 1 },
         { cluster := 1, segment := 3, is := 0 }, { cluster := 1, segment := 3, is := 1 }]) 0)).map
      (fun p => (p.2, (p.1.getD 7 default).next, (p.1.getD 7 default).jump_candidates)) =
      Except.ok (7, 4, [4]) ∧ (4 : ℕ) ∈ [4] :=
  of_decide_eq_true (by with_unfolding_all rfl)

/-- C5 amended: in the final beat list (ids assigned, `next`/`jump_candidates`
computed, `last_chance` override applied), every beat `b` satisfies:
`b.id` is not among its jump candidates; no candidate's beat shares `b`'s
segment; and for every beat *other than* `last_chance`, `b.next` is not a
candidate and `beats[b.next].segment == beats[b.id+1].segment` whenever
`b.id+1` is a valid id.  At `last_chance` itself the override forces
`b.next = min(b.jump_candidates)`, which *is* a member of the candidate
list (the exception the original claim misses). -/
theorem C5_jump_graph (beats0 : List Beat) (lbb : ℕ) (final : List Beat) (lc : ℕ)
    (hrun : apply_last_chance (assign_next_and_jumps (assign_ids beats0) lbb) =
      Except.ok (final, lc)) :
    ∀ p, p < final.length →
      ((final.getD p default).id ∉ (final.getD p default).jump_candidates) ∧
      (∀ c ∈ (final.getD p default).jump_candidates,
        (final.getD c default).segment ≠ (final.getD p default).segment) ∧
      (p ≠ lc → (final.getD p default).next ∉ (final.getD p default).jump_candidates) ∧
      (p ≠ lc → (final.getD p default).id + 1 < final.length →
        (final.getD (final.getD p default).next default).segment =
        (final.getD ((final.getD p default).id + 1) default).segment) ∧
      (p = lc → (final.getD p default).next ∈ (final.getD p default).jump_candidates ∧
        ∀ c ∈ (final.getD p default).jump_candidates, (final.getD p default).next ≤ c) := by
  have hid1 : ∀ q, q < (assign_ids beats0).length →
      ((assign_ids beats0).getD q default).id = q := fun q hq => assign_ids_id beats0 q hq
  have hlen21 : (assign_next_and_jumps (assign_ids beats0) lbb).length =
      (assign_ids beats0).length := assign_next_aux_length (assign_ids beats0) lbb _ 0
  simp only [apply_last_chance] at hrun
  rcases hmin : (((assign_next_and_jumps (assign_ids beats0) lbb).getD
      (last_chance_index (assign_next_and_jumps (assign_ids beats0) lbb))
      default).jump_candidates.min?) with _ | mval
  · rw [hmin] at hrun
    exact absurd hrun (by simp)
  · rw [hmin] at hrun
    have hinj := Except.ok.inj hrun
    have hfinal : (assign_next_and_jumps (assign_ids beats0) lbb).set
        (last_chance_index (assign_next_and_jumps (assign_ids beats0) lbb))
        { (assign_next_and_jumps (assign_ids beats0) lbb).getD
            (last_chance_index (assign_next_and_jumps (assign_ids beats0) lbb)) default
          with next := mval } = final := congrArg Prod.fst hinj
    have hlc : last_chance_index (assign_next_and_jumps (assign_ids beats0) lbb) = lc :=
      congrArg Prod.snd hinj
    have hlenf : final.length = (assign_next_and_jumps (assign_ids beats0) lbb).length := by
      rw [← hfinal]
      simp
    have hgd2 : ∀ q, q < (assign_next_and_jumps (assign_ids beats0) lbb).length →
        (assign_next_and_jumps (assign_ids beats0) lbb).getD q default =
          assignOne (assign_ids beats0) lbb q ((assign_ids beats0).getD q default) := by
      intro q hq
      have hq1 : q < (assign_ids beats0).length := by rwa [hlen21] at hq
      have := assign_next_aux_getD (assign_ids beats0) lbb (assign_ids beats0) 0 q hq1
      simpa using this
    have hgdf : ∀ q, q < final.length → final.getD q default =
        (if q = lc then
          { (assign_next_and_jumps (assign_ids beats0) lbb).getD q default with next := mval }
        else (assign_next_and_jumps (assign_ids beats0) lbb).getD q default) := by
      intro q hq
      rw [← hfinal]
      have hq2 : q < (assign_next_and_jumps (assign_ids beats0) lbb).length := by
        rwa [hlenf] at hq
      by_cases hq3 : q = lc
      · rw [if_pos hq3]
        subst hq3
        rw [← hlc]
        rw [List.getD_eq_getElem?_getD, List.getElem?_set_self]
        · simp
        · rwa [← hlc] at hq2
      · rw [if_neg hq3]
        rw [List.getD_eq_getElem?_getD, List.getElem?_set_ne, ← List.getD_eq_getElem?_getD]
        rw [hlc]
        exact fun hcontra => hq3 hcontra.symm
    have hsegAll : ∀ q, q < final.length → (final.getD q default).segment =
        ((assign_ids beats0).getD q default).segment := by
      intro q hq
      have hq2 : q < (assign_next_and_jumps (assign_ids beats0) lbb).length := by
        rwa [hlenf] at hq
      rw [hgdf q hq]
      by_cases hq3 : q = lc
      · rw [if_pos hq3, hgd2 q hq2]
        rfl
      · rw [if_neg hq3, hgd2 q hq2]
        rfl
    have hcandAll : ∀ q, q < final.length → (final.getD q default).jump_candidates =
        (assignOne (assign_ids beats0) lbb q ((assign_ids beats0).getD q default)).jump_candidates := by
      intro q hq
      have hq2 : q < (assign_next_and_jumps (assign_ids beats0) lbb).length := by
        rwa [hlenf] at hq
      rw [hgdf q hq]
      by_cases hq3 : q = lc
      · rw [if_pos hq3, hgd2 q hq2]
      · rw [if_neg hq3, hgd2 q hq2]
    have hidAll : ∀ q, q < final.length → (final.getD q default).id = q := by
      intro q hq
      have hq2 : q < (assign_next_and_jumps (assign_ids beats0) lbb).length := by
        rwa [hlenf] at hq
      have hq1 : q < (assign_ids beats0).length := by rwa [hlen21] at hq2
      rw [hgdf q hq]
      by_cases hq3 : q = lc
      · rw [if_pos hq3, hgd2 q hq2]
        show (assignOne (assign_ids beats0) lbb q ((assign_ids beats0).getD q default)).id = q
        rw [assignOne_id]
        exact hid1 q hq1
      · rw [if_neg hq3, hgd2 q hq2, assignOne_id]
        exact hid1 q hq1
    intro p hp
    have hp2 : p < (assign_next_and_jumps (assign_ids beats0) lbb).length := by
      rwa [hlenf] at hp
    have hp1 : p < (assign_ids beats0).length := by rwa [hlen21] at hp2
    have hcand2 := assignOne_candidates (assign_ids beats0) lbb p
      ((assign_ids beats0).getD p default) hid1
    refine ⟨?_, ?_, ?_, ?_, ?_⟩
    · -- (a) own id is never a candidate
      intro hmem
      rw [hcandAll p hp, hidAll p hp] at hmem
      have h := (hcand2 p hmem).2.1
      exact h rfl
    · -- (c) no candidate shares the segment
      intro c hcmem
      rw [hcandAll p hp] at hcmem
      obtain ⟨hclt1, hcseg, -⟩ := hcand2 c hcmem
      have hcltf : c < final.length := by
        rw [hlenf, hlen21]
        exact hclt1
      rw [hsegAll c hcltf, hsegAll p hp]
      exact hcseg
    · -- (b) next is never a candidate away from last_chance
      intro hne hmem
      rw [hcandAll p hp] at hmem
      have hnext : (final.getD p default).next =
          (assignOne (assign_ids beats0) lbb p ((assign_ids beats0).getD p default)).next := by
        rw [hgdf p hp, if_neg hne, hgd2 p hp2]
      rw [hnext] at hmem
      exact (hcand2 _ hmem).2.2 rfl
    · -- (d) next continues the canonical segment away from last_chance
      intro hne hplus
      rw [hidAll p hp] at hplus
      have hnotlast : p ≠ (assign_ids beats0).length - 1 := by
        rw [← hlen21, ← hlenf]
        omega
      have hnext : (final.getD p default).next = p + 1 := by
        rw [hgdf p hp, if_neg hne, hgd2 p hp2,
          assignOne_next_of_ne_last _ _ _ _ hnotlast, hid1 p hp1]
      rw [hnext, hidAll p hp]
    · -- (e) at last_chance the override picks the least candidate
      intro heq
      have hm := (List.min?_eq_some_iff (fun a => le_refl a) (fun a b => min_choice a b)
        (fun _ _ _ => le_min_iff)).mp hmin
      have hnext : (final.getD p default).next = mval := by
        rw [hgdf p hp, if_pos heq]
      have hcands : (final.getD p default).jump_candidates =
          ((assign_next_and_jumps (assign_ids beats0) lbb).getD
            (last_chance_index (assign_next_and_jumps (assign_ids beats0) lbb))
            default).jump_candidates := by
        rw [hgdf p hp, if_pos heq, heq, ← hlc]
      rw [hnext, hcands]
      exact ⟨hm.1, hm.2⟩

theorem C5_jump_graph_witness :
    ((exampleFinal8.getD 7 default).next ∈ (exampleFinal8.getD 7 default).jump_candidates) ∧
    ((exampleFinal8.getD 0 default).id ∉ (exampleFinal8.getD 0 default).jump_candidates) := by
  have h := C5_jump_graph exampleBeats8 0 exampleFinal8 7
    (of_decide_eq_true (by with_unfolding_all rfl))
  exact ⟨((h 7 (by decide)).2.2.2.2 rfl).1, (h 0 (by decide)).1⟩

/-- C9: with the default `starting_beat_cache=None` the pipeline raises
`AttributeError` reading the cache's `size` attribute, before any beat
detection runs (the result is this error for *every* madmom oracle, which
is never consulted); and the engine completes only when the cache is an
array (possibly empty). -/
theorem C9_cache_required (ext : Externals) (start_beat : ℕ) :
    (process_audio none ext start_beat =
      Except.error "AttributeError: NoneType object has no attribute size") ∧
    (∀ (cache : Option (List (ℚ × ℚ))) (out : JukeboxOutput),
      process_audio cache ext start_beat = Except.ok out → ∃ arr, cache = some arr) := by
  have hnone : process_audio none ext start_beat =
      Except.error "AttributeError: NoneType object has no attribute size" := rfl
  refine ⟨hnone, ?_⟩
  intro cache out hok
  cases cache with
  | none =>
    rw [hnone] at hok
    exact absurd hok (by simp)
  | some arr => exact ⟨arr, rfl⟩

theorem C9_cache_required_witness :
    process_audio none exampleExternals 1 =
      Except.error "AttributeError: NoneType object has no attribute size" :=
  (C9_cache_required exampleExternals 1).1

/-- C10: if no beat in the truncated beat list has a non-empty
`jump_candidates` list, the `last_chance` step takes the minimum of an
empty sequence and raises `ValueError` (propagated by the pipeline, which
then terminates without setting `beats` or `play_vector` — the run returns
the error, not an output object); conversely a successful run guarantees at
least one beat with a non-empty `jump_candidates` list. -/
theorem C10_no_candidates_fatal :
    (∀ beats : List Beat, (∀ b ∈ beats, b.jump_candidates = []) →
      apply_last_chance beats = Except.error "min() arg is an empty sequence") ∧
    (∀ (cache : Option (List (ℚ × ℚ))) (ext : Externals) (sb : ℕ)
      (info beats : List Beat) (k : ℕ),
      pipeline_front cache ext sb = Except.ok (info, beats, k) → beats ≠ [] →
      (∀ b ∈ beats, b.jump_candidates = []) →
      process_audio cache ext sb = Except.error "min() arg is an empty sequence") ∧
    (∀ (cache : Option (List (ℚ × ℚ))) (ext : Externals) (sb : ℕ) (out : JukeboxOutput),
      process_audio cache ext sb = Except.ok out →
      ∃ b ∈ out.beats, b.jump_candidates ≠ []) := by
  have hpart1 : ∀ beats : List Beat, (∀ b ∈ beats, b.jump_candidates = []) →
      apply_last_chance beats = Except.error "min() arg is an empty sequence" := by
    intro beats hall
    have hjc : (beats.getD (last_chance_index beats) default).jump_candidates = [] := by
      by_cases h : last_chance_index beats < beats.length
      · exact hall _ (mem_getD beats _ h default)
      · rw [getD_of_length_le beats _ default (not_lt.mp h)]
        rfl
    simp only [apply_last_chance, hjc]
    rfl
  refine ⟨hpart1, ?_, ?_⟩
  · intro cache ext sb info beats k hfront hne hall
    simp only [process_audio, hfront]
    rcases hmax : (beats.map (fun b => b.segment)).max? with _ | mx
    · rw [List.max?_eq_none_iff] at hmax
      exact absurd (List.map_eq_nil_iff.mp hmax) hne
    · rw [hmax, hpart1 beats hall]
  · intro cache ext sb out hok
    simp only [process_audio] at hok
    split at hok
    · exact absurd hok (by simp)
    · rename_i x0 info beats k hfront
      split at hok
      · exact absurd hok (by simp)
      · rename_i mx hmax
        split at hok
        · exact absurd hok (by simp)
        · rename_i x final lcv happ
          split at hok
          · exact absurd hok (by simp)
          · rename_i pv hpv
            have hout := Except.ok.inj hok
            have houtbeats : out.beats = final := (congrArg JukeboxOutput.beats hout).symm
            -- extract the last_chance beat from the override
            simp only [apply_last_chance] at happ
            rcases hmin : (beats.getD (last_chance_index beats) default).jump_candidates.min?
              with _ | m
            · rw [hmin] at happ
              exact absurd happ (by simp)
            · rw [hmin] at happ
              have hinj := Except.ok.inj happ
              have hfin : beats.set (last_chance_index beats)
                  { beats.getD (last_chance_index beats) default with next := m } = final :=
                congrArg Prod.fst hinj
              have hnonempty :
                  (beats.getD (last_chance_index beats) default).jump_candidates ≠ [] := by
                intro hcon
                rw [hcon] at hmin
                simp at hmin
              have hlci : last_chance_index beats < beats.length := by
                by_contra hcon
                push_neg at hcon
                rw [getD_of_length_le beats _ default hcon] at hnonempty
                exact hnonempty rfl
              have hlenf : final.length = beats.length := by
                rw [← hfin]
                simp
              have hgetf : final.getD (last_chance_index beats) default =
                  { beats.getD (last_chance_index beats) default with next := m } := by
                rw [← hfin, List.getD_eq_getElem?_getD, List.getElem?_set_self]
                · simp
                · exact hlci
              rw [houtbeats]
              refine ⟨final.getD (last_chance_index beats) default,
                mem_getD final _ (by rw [hlenf]; exact hlci) default, ?_⟩
              rw [hgetf]
              exact hnonempty

theorem C10_no_candidates_fatal_witness :
    apply_last_chance [(default : Beat)] = Except.error "min() arg is an empty sequence" :=
  C10_no_candidates_fatal.1 [(default : Beat)] (by decide)

end Remixatron
